import Mathlib

/-!
Verification of the quiz-video generator (`app.py`).

Python strings are modelled as lists of characters (`Str`), fonts as abstract
width/height functions (PIL `getbbox` metrics), and frames as lists of pixel
rows.  All definitions are direct translations of the corresponding Python
code; where behaviour of an external library or of the specification is
modelled instead, the doc comment says so.
-/

set_option autoImplicit false

namespace QuizApp

/-- A Python string, modelled as a list of characters. -/
abbrev Str := List Char

/-- Python `str.lower()`. -/
def pyLower (s : Str) : Str := s.map Char.toLower

/-- Python `str.strip()`: drop leading and trailing whitespace. -/
def pyStrip (s : Str) : Str :=
  ((s.dropWhile Char.isWhitespace).reverse.dropWhile Char.isWhitespace).reverse

/-- Worker for `pySplit`: scan the remaining characters, `cur` holding the
word currently being read. -/
def pySplitGo : Str → Str → List Str
  | [], cur => if cur = [] then [] else [cur]
  | c :: s, cur =>
    if c.isWhitespace then
      if cur = [] then pySplitGo s [] else cur :: pySplitGo s []
    else
      pySplitGo s (cur ++ [c])

/-- Python `str.split()` (no argument): split on runs of whitespace,
dropping empty pieces. -/
def pySplit (s : Str) : List Str := pySplitGo s []

/-- Python `str.startswith(p)` for our character-list strings. -/
def startsWithStr (p s : Str) : Bool := decide (s.take p.length = p)

/-- Python substring containment `p in s`. -/
def strHasSub : Str → Str → Bool
  | p, [] => startsWithStr p []
  | p, c :: t => startsWithStr p (c :: t) || strHasSub p t

/-- Join a list of words with single spaces (Python `" ".join(ws)`). -/
def joinSp : List Str → Str
  | [] => []
  | [w] => w
  | w :: x :: ws => w ++ ' ' :: joinSp (x :: ws)

/-- Concatenation of a list of strings (Python `"".join(ws)`). -/
def joinAll (ws : List Str) : Str := ws.foldr (· ++ ·) []

/-! ### Text fitter: `break_word` (app.py lines 71–86) -/

/-- Loop body of `break_word`: iterate over the characters of the word with
state `(segments, current_segment)`. -/
def breakWordGo (wf : Str → ℕ) (maxWidth : ℕ) :
    Str → Str → List Str → List Str
  | [], cur, segs => if cur = [] then segs else segs ++ [cur]
  | c :: cs, cur, segs =>
    let test := cur ++ [c]
    if wf test ≤ maxWidth then
      breakWordGo wf maxWidth cs test segs
    else
      if cur = [] then breakWordGo wf maxWidth cs [c] segs
      else breakWordGo wf maxWidth cs [c] (segs ++ [cur])

/-- `break_word(word, font, max_width)`: break a single word into segments
that fit within `max_width`.  The font is modelled by its width metric
`wf text = getbbox(text)[2] - getbbox(text)[0]`. -/
def break_word (wf : Str → ℕ) (maxWidth : ℕ) (word : Str) : List Str :=
  breakWordGo wf maxWidth word [] []

/-! ### Text fitter: line wrapping inside `draw_centered_wrapped_text`
(app.py lines 88–118) -/

/-- The `words` list built by `draw_centered_wrapped_text`: split the text on
whitespace and replace every word wider than the region by its
`break_word` segments. -/
def wrapWords (wf : Str → ℕ) (maxWidth : ℕ) (text : Str) : List Str :=
  (pySplit text).flatMap
    (fun w => if maxWidth < wf w then break_word wf maxWidth w else [w])

/-- Loop body of the line-accumulation loop of `draw_centered_wrapped_text`,
with state `(lines, current_line)`. -/
def wrapLinesGo (wf : Str → ℕ) (maxWidth : ℕ) :
    List Str → Str → List Str → List Str
  | [], cur, lns => if cur = [] then lns else lns ++ [cur]
  | w :: ws, cur, lns =>
    let test := if cur = [] then w else cur ++ ' ' :: w
    if wf test ≤ maxWidth then
      wrapLinesGo wf maxWidth ws test lns
    else
      if cur = [] then wrapLinesGo wf maxWidth ws w lns
      else wrapLinesGo wf maxWidth ws w (lns ++ [cur])

/-- The list of wrapped lines produced by `draw_centered_wrapped_text` for a
text and a region of width `maxWidth`. -/
def wrapText (wf : Str → ℕ) (maxWidth : ℕ) (text : Str) : List Str :=
  wrapLinesGo wf maxWidth (wrapWords wf maxWidth text) [] []

/-! ### Lemmas about the string helpers -/

theorem pySplitGo_word :
    ∀ (w cur : Str), (∀ c ∈ w, ¬ c.isWhitespace) →
      pySplitGo w cur = if cur ++ w = [] then [] else [cur ++ w] := by
  intro w
  induction w with
  | nil =>
    intro cur _
    simp [pySplitGo]
  | cons c w ih =>
    intro cur hws
    have hc : ¬ c.isWhitespace := hws c (by simp)
    rw [pySplitGo, if_neg hc, ih (cur ++ [c]) (fun d hd => hws d (by simp [hd]))]
    simp

theorem pySplitGo_word_space :
    ∀ (w cur r : Str), (∀ c ∈ w, ¬ c.isWhitespace) →
      pySplitGo (w ++ ' ' :: r) cur =
        if cur ++ w = [] then pySplit r else (cur ++ w) :: pySplit r := by
  intro w
  induction w with
  | nil =>
    intro cur r _
    have hsp : (' ' : Char).isWhitespace = true := by decide
    simp only [List.nil_append, pySplitGo, hsp, if_pos rfl]
    by_cases h : cur = []
    · simp [h, pySplit]
    · simp [h, pySplit]
  | cons c w ih =>
    intro cur r hws
    have hc : ¬ c.isWhitespace := hws c (by simp)
    rw [List.cons_append, pySplitGo, if_neg hc,
        ih (cur ++ [c]) r (fun d hd => hws d (by simp [hd]))]
    simp

theorem pySplit_word (w : Str) (hne : w ≠ [])
    (hws : ∀ c ∈ w, ¬ c.isWhitespace) : pySplit w = [w] := by
  rw [pySplit, pySplitGo_word w [] hws]
  simp [hne]

theorem pySplit_word_space (w r : Str) (hne : w ≠ [])
    (hws : ∀ c ∈ w, ¬ c.isWhitespace) :
    pySplit (w ++ ' ' :: r) = w :: pySplit r := by
  rw [pySplit, pySplitGo_word_space w [] r hws]
  simp [hne]

theorem pySplitGo_sound :
    ∀ (s cur : Str), (∀ c ∈ cur, ¬ c.isWhitespace) →
      ∀ w ∈ pySplitGo s cur, w ≠ [] ∧ ∀ c ∈ w, ¬ c.isWhitespace := by
  intro s
  induction s with
  | nil =>
    intro cur hcur w hw
    by_cases h : cur = []
    · simp [pySplitGo, h] at hw
    · rw [pySplitGo, if_neg h] at hw
      have hwc : w = cur := by simpa using hw
      subst hwc
      exact ⟨h, hcur⟩
  | cons a s ih =>
    intro cur hcur w hw
    rw [pySplitGo] at hw
    by_cases ha : a.isWhitespace
    · rw [if_pos ha] at hw
      by_cases h : cur = []
      · rw [if_pos h] at hw
        exact ih [] (by simp) w hw
      · rw [if_neg h] at hw
        rcases List.mem_cons.mp hw with hw | hw
        · subst hw
          exact ⟨h, hcur⟩
        · exact ih [] (by simp) w hw
    · rw [if_neg ha] at hw
      refine ih (cur ++ [a]) ?_ w hw
      intro c hc
      rcases List.mem_append.mp hc with h2 | h2
      · exact hcur c h2
      · have : c = a := by simpa using h2
        subst this
        exact ha

theorem pySplit_mem_nonempty (s : Str) : ∀ w ∈ pySplit s, w ≠ [] :=
  fun w hw => (pySplitGo_sound s [] (by simp) w hw).1

theorem pySplit_mem_no_ws (s : Str) :
    ∀ w ∈ pySplit s, ∀ c ∈ w, ¬ c.isWhitespace :=
  fun w hw => (pySplitGo_sound s [] (by simp) w hw).2

theorem joinSp_cons_cons (w x : Str) (ws : List Str) :
    joinSp (w :: x :: ws) = w ++ ' ' :: joinSp (x :: ws) := rfl

theorem joinSp_append_single (w : Str) :
    ∀ cw : List Str, cw ≠ [] → joinSp (cw ++ [w]) = joinSp cw ++ ' ' :: w := by
  intro cw
  induction cw with
  | nil => exact fun h => absurd rfl h
  | cons x cw ih =>
    intro _
    cases cw with
    | nil => rfl
    | cons y cw2 =>
      simp only [List.cons_append, joinSp_cons_cons]
      rw [← List.cons_append y cw2 [w], ih (by simp)]
      simp

theorem pySplit_joinSp (ws : List Str)
    (hne : ∀ w ∈ ws, w ≠ [])
    (hws : ∀ w ∈ ws, ∀ c ∈ w, ¬ c.isWhitespace) :
    pySplit (joinSp ws) = ws := by
  induction ws with
  | nil => simp [joinSp, pySplit, pySplitGo]
  | cons w ws ih =>
    cases ws with
    | nil =>
      exact pySplit_word w (hne w (by simp)) (hws w (by simp))
    | cons x ws2 =>
      rw [joinSp_cons_cons,
          pySplit_word_space w _ (hne w (by simp)) (hws w (by simp)),
          ih (fun v hv => hne v (by simp [hv]))
             (fun v hv => hws v (by simp [hv]))]

/-! ### Lemmas about `break_word` -/

theorem breakWordGo_flatten (wf : Str → ℕ) (mw : ℕ) :
    ∀ (cs cur : Str) (segs : List Str),
      (breakWordGo wf mw cs cur segs).flatten = segs.flatten ++ cur ++ cs := by
  intro cs
  induction cs with
  | nil =>
    intro cur segs
    by_cases h : cur = []
    · simp [breakWordGo, h]
    · simp [breakWordGo, h]
  | cons c cs ih =>
    intro cur segs
    rw [breakWordGo]
    by_cases h1 : wf (cur ++ [c]) ≤ mw
    · rw [if_pos h1, ih]
      simp
    · rw [if_neg h1]
      by_cases h2 : cur = []
      · rw [if_pos h2, ih]
        simp [h2]
      · rw [if_neg h2, ih]
        simp

theorem break_word_flatten (wf : Str → ℕ) (mw : ℕ) (word : Str) :
    (break_word wf mw word).flatten = word := by
  rw [break_word, breakWordGo_flatten]
  simp

theorem breakWordGo_nonempty (wf : Str → ℕ) (mw : ℕ) :
    ∀ (cs cur : Str) (segs : List Str),
      (∀ s ∈ segs, s ≠ []) →
      ∀ s ∈ breakWordGo wf mw cs cur segs, s ≠ [] := by
  intro cs
  induction cs with
  | nil =>
    intro cur segs hs
    by_cases h : cur = []
    · simpa [breakWordGo, h] using hs
    · rw [breakWordGo, if_neg h]
      intro s hmem
      rcases List.mem_append.mp hmem with hm | hm
      · exact hs s hm
      · simpa using (by simpa using hm) ▸ h
  | cons c cs ih =>
    intro cur segs hs
    rw [breakWordGo]
    by_cases h1 : wf (cur ++ [c]) ≤ mw
    · rw [if_pos h1]
      exact ih _ _ hs
    · rw [if_neg h1]
      by_cases h2 : cur = []
      · rw [if_pos h2]
        exact ih _ _ hs
      · rw [if_neg h2]
        refine ih _ _ ?_
        intro s hmem
        rcases List.mem_append.mp hmem with hm | hm
        · exact hs s hm
        · simpa using (by simpa using hm) ▸ h2

theorem break_word_nonempty (wf : Str → ℕ) (mw : ℕ) (word : Str) :
    ∀ s ∈ break_word wf mw word, s ≠ [] :=
  breakWordGo_nonempty wf mw word [] [] (by simp)

theorem break_word_chars (wf : Str → ℕ) (mw : ℕ) (word : Str) :
    ∀ s ∈ break_word wf mw word, ∀ c ∈ s, c ∈ word := by
  intro s hs c hc
  have : c ∈ (break_word wf mw word).flatten :=
    List.mem_flatten.mpr ⟨s, hs, hc⟩
  rwa [break_word_flatten] at this

/-- A one-character word is always emitted as exactly one segment. -/
theorem break_word_singleton (wf : Str → ℕ) (mw : ℕ) (c : Char) :
    break_word wf mw [c] = [[c]] := by
  rw [break_word, breakWordGo]
  by_cases h : wf ([] ++ [c]) ≤ mw
  · rw [if_pos h]
    rfl
  · rw [if_neg h, if_pos rfl]
    rfl

/-! ### Lemmas about `joinSp` and the line-accumulation loop -/

theorem joinSp_ne_nil (cw : List Str) (h : cw ≠ [])
    (hw : ∀ w ∈ cw, w ≠ []) : joinSp cw ≠ [] := by
  cases cw with
  | nil => exact absurd rfl h
  | cons x cw2 =>
    cases cw2 with
    | nil => simpa [joinSp] using hw x (by simp)
    | cons y t => simp [joinSp_cons_cons]

theorem flatten_ne_nil {α : Type} (P : List (List α)) (hP : ∀ p ∈ P, p ≠ [])
    (h : P ≠ []) : P.flatten ≠ [] := by
  cases P with
  | nil => exact absurd rfl h
  | cons p t =>
    have : p ≠ [] := hP p (by simp)
    simp [List.flatten_cons, this]

theorem joinSp_append (q : List Str) (hq : q ≠ []) :
    ∀ p : List Str, p ≠ [] → joinSp (p ++ q) = joinSp p ++ ' ' :: joinSp q := by
  intro p
  induction p with
  | nil => exact fun h => absurd rfl h
  | cons x p ih =>
    intro _
    cases p with
    | nil =>
      cases q with
      | nil => exact absurd rfl hq
      | cons y t => simp [joinSp_cons_cons, joinSp]
    | cons z p2 =>
      simp only [List.cons_append, joinSp_cons_cons]
      rw [← List.cons_append z p2 q, ih (by simp)]
      simp

theorem joinSp_map_flatten :
    ∀ R : List (List Str), (∀ p ∈ R, p ≠ []) →
      joinSp (R.map joinSp) = joinSp R.flatten := by
  intro R
  induction R with
  | nil => intro _; rfl
  | cons p R ih =>
    intro h
    cases R with
    | nil => simp [joinSp]
    | cons q R2 =>
      have hR : ∀ r ∈ q :: R2, r ≠ [] := fun r hr => h r (by simp [hr])
      have ih2 := ih hR
      simp only [List.map_cons] at ih2 ⊢
      simp only [List.flatten_cons] at ih2 ⊢
      have hq : q ++ R2.flatten ≠ [] := by
        have : q ≠ [] := hR q (by simp)
        simp [this]
      rw [joinSp_cons_cons, ih2,
          joinSp_append (q ++ R2.flatten) hq p (h p (by simp))]

theorem wrapLinesGo_partition (wf : Str → ℕ) (mw : ℕ) :
    ∀ (ws cw : List Str) (P : List (List Str)),
      (∀ w ∈ ws, w ≠ []) → (∀ w ∈ cw, w ≠ []) →
      (∀ p ∈ P, p ≠ [] ∧ ∀ w ∈ p, w ≠ []) →
      ∃ R : List (List Str),
        wrapLinesGo wf mw ws (joinSp cw) (P.map joinSp) = R.map joinSp ∧
        R.flatten = P.flatten ++ cw ++ ws ∧
        ∀ p ∈ R, p ≠ [] ∧ ∀ w ∈ p, w ≠ [] := by
  intro ws
  induction ws with
  | nil =>
    intro cw P _ hcw hP
    by_cases h : cw = []
    · subst h
      refine ⟨P, ?_, by simp, hP⟩
      simp [wrapLinesGo, joinSp]
    · have hne : joinSp cw ≠ [] := joinSp_ne_nil cw h hcw
      refine ⟨P ++ [cw], ?_, by simp, ?_⟩
      · rw [wrapLinesGo, if_neg hne]
        simp
      · intro p hp
        rcases List.mem_append.mp hp with h2 | h2
        · exact hP p h2
        · have : p = cw := by simpa using h2
          subst this
          exact ⟨h, hcw⟩
  | cons w ws ih =>
    intro cw P hws hcw hP
    have hw : w ≠ [] := hws w (by simp)
    have hws2 : ∀ v ∈ ws, v ≠ [] := fun v hv => hws v (by simp [hv])
    have htest : (if joinSp cw = [] then w else joinSp cw ++ ' ' :: w)
        = joinSp (cw ++ [w]) := by
      by_cases h : cw = []
      · subst h
        simp [joinSp]
      · rw [if_neg (joinSp_ne_nil cw h hcw), joinSp_append_single w cw h]
    simp only [wrapLinesGo]
    rw [htest]
    by_cases h1 : wf (joinSp (cw ++ [w])) ≤ mw
    · rw [if_pos h1]
      have hcw2 : ∀ v ∈ cw ++ [w], v ≠ [] := by
        intro v hv
        rcases List.mem_append.mp hv with h2 | h2
        · exact hcw v h2
        · have : v = w := by simpa using h2
          subst this
          exact hw
      obtain ⟨R, r1, r2, r3⟩ := ih (cw ++ [w]) P hws2 hcw2 hP
      refine ⟨R, r1, ?_, r3⟩
      rw [r2]
      simp
    · rw [if_neg h1]
      by_cases h : joinSp cw = []
      · have hcwnil : cw = [] := by
          by_contra hc
          exact joinSp_ne_nil cw hc hcw h
        subst hcwnil
        rw [if_pos h]
        obtain ⟨R, r1, r2, r3⟩ := ih [w] P hws2 (by simp [hw]) hP
        refine ⟨R, r1, ?_, r3⟩
        rw [r2]
        simp
      · have hcwne : cw ≠ [] := by
          intro hc
          subst hc
          exact h rfl
        rw [if_neg h]
        have hmap : P.map joinSp ++ [joinSp cw] = (P ++ [cw]).map joinSp := by
          simp
        rw [hmap]
        have hP2 : ∀ p ∈ P ++ [cw], p ≠ [] ∧ ∀ v ∈ p, v ≠ [] := by
          intro p hp
          rcases List.mem_append.mp hp with h2 | h2
          · exact hP p h2
          · have : p = cw := by simpa using h2
            subst this
            exact ⟨hcwne, hcw⟩
        obtain ⟨R, r1, r2, r3⟩ := ih [w] (P ++ [cw]) hws2 (by simp [hw]) hP2
        refine ⟨R, r1, ?_, r3⟩
        rw [r2]
        simp

theorem wrapWords_nonempty (wf : Str → ℕ) (mw : ℕ) (text : Str) :
    ∀ w ∈ wrapWords wf mw text, w ≠ [] := by
  intro w hw
  obtain ⟨v, hv, hw2⟩ := List.mem_flatMap.mp hw
  by_cases h : mw < wf v
  · rw [if_pos h] at hw2
    exact break_word_nonempty wf mw v w hw2
  · rw [if_neg h] at hw2
    have : w = v := by simpa using hw2
    subst this
    exact pySplit_mem_nonempty text w hv

theorem wrapWords_no_ws (wf : Str → ℕ) (mw : ℕ) (text : Str) :
    ∀ w ∈ wrapWords wf mw text, ∀ c ∈ w, ¬ c.isWhitespace := by
  intro w hw c hc
  obtain ⟨v, hv, hw2⟩ := List.mem_flatMap.mp hw
  by_cases h : mw < wf v
  · rw [if_pos h] at hw2
    exact pySplit_mem_no_ws text v hv c (break_word_chars wf mw v w hw2 c hc)
  · rw [if_neg h] at hw2
    have : w = v := by simpa using hw2
    subst this
    exact pySplit_mem_no_ws text w hv c hc

theorem wrapText_partition (wf : Str → ℕ) (mw : ℕ) (text : Str) :
    ∃ R : List (List Str),
      wrapText wf mw text = R.map joinSp ∧
      R.flatten = wrapWords wf mw text ∧
      ∀ p ∈ R, p ≠ [] ∧ ∀ w ∈ p, w ≠ [] := by
  obtain ⟨R, h1, h2, h3⟩ :=
    wrapLinesGo_partition wf mw (wrapWords wf mw text) [] []
      (wrapWords_nonempty wf mw text) (by simp) (by simp)
  exact ⟨R, h1, by simpa using h2, h3⟩

theorem flatMap_singleton_id {α : Type} :
    ∀ (l : List α) (f : α → List α), (∀ a ∈ l, f a = [a]) → l.flatMap f = l := by
  intro l
  induction l with
  | nil => intro f _; rfl
  | cons a l ih =>
    intro f h
    rw [List.flatMap_cons, h a (by simp), ih f (fun b hb => h b (by simp [hb]))]
    rfl

/-- **C1** (word-wrap round-trip): for every font width metric, region width
and input text, splitting the single-space re-join of the wrapped lines on
whitespace recovers exactly the processed word sequence (the whitespace-split
words of the text, with each over-wide word replaced by its `break_word`
segments) — no words are dropped or duplicated; re-joining with single spaces
recovers the whitespace-normalized text whenever no word had to be
character-broken; concatenating the segments of a character-broken word
(without added spaces) reproduces the original word; and an oversized single
character is still emitted as its own segment (total functions, no error). -/
theorem wordwrap_roundtrip (wf : Str → ℕ) (mw : ℕ) (text : Str) :
    pySplit (joinSp (wrapText wf mw text)) = wrapWords wf mw text ∧
    joinSp (wrapText wf mw text) = joinSp (wrapWords wf mw text) ∧
    ((∀ w ∈ pySplit text, wf w ≤ mw) →
      joinSp (wrapText wf mw text) = joinSp (pySplit text)) ∧
    (∀ word : Str, (break_word wf mw word).flatten = word) ∧
    (∀ c : Char, mw < wf [c] → break_word wf mw [c] = [[c]]) := by
  obtain ⟨R, h1, h2, h3⟩ := wrapText_partition wf mw text
  have hparts : ∀ p ∈ R, p ≠ [] := fun p hp => (h3 p hp).1
  have hkey : joinSp (wrapText wf mw text) = joinSp (wrapWords wf mw text) := by
    rw [h1, joinSp_map_flatten R hparts, h2]
  refine ⟨?_, hkey, ?_, break_word_flatten wf mw,
    fun c _ => break_word_singleton wf mw c⟩
  · rw [hkey]
    exact pySplit_joinSp _ (wrapWords_nonempty wf mw text)
      (wrapWords_no_ws wf mw text)
  · intro hall
    rw [hkey, wrapWords, flatMap_singleton_id _ _
      (fun w hw => by rw [if_neg (not_lt.mpr (hall w hw))])]

theorem wordwrap_roundtrip_witness :
    pySplit (joinSp (wrapText List.length 3
        ['a','b',' ','c','d','e','f','g',' ','h','i'])) =
      wrapWords List.length 3 ['a','b',' ','c','d','e','f','g',' ','h','i'] ∧
    joinSp (wrapText List.length 3 ['h','i',' ','h','o']) =
      joinSp (pySplit ['h','i',' ','h','o']) ∧
    (break_word List.length 3 ['c','d','e','f','g']).flatten =
      ['c','d','e','f','g'] ∧
    break_word List.length 0 ['x'] = [['x']] :=
  ⟨(wordwrap_roundtrip List.length 3 _).1,
   (wordwrap_roundtrip List.length 3 ['h','i',' ','h','o']).2.2.1 (by decide),
   (wordwrap_roundtrip List.length 3 []).2.2.2.1 ['c','d','e','f','g'],
   (wordwrap_roundtrip List.length 0 ['x']).2.2.2.2 'x' (by decide)⟩

/-! ### `adjust_font_size` (app.py lines 136–146)

The font at a given size is modelled by its metric functions
`w size = getbbox(text)[2] - getbbox(text)[0]` and
`h size = getbbox(text)[3] - getbbox(text)[1]` for the fixed text being
measured; the function returns the chosen font size (the code returns the
`ImageFont` loaded at that size). -/

def adjust_font_size (w h : ℕ → ℕ) (rw rh : ℕ) : ℕ → ℕ
  | 0 => 0
  | s + 1 =>
    if 5 < s + 1 then
      if w (s + 1) ≤ rw ∧ h (s + 1) ≤ rh then s + 1
      else adjust_font_size w h rw rh s
    else s + 1

theorem adjust_font_size_spec_aux (w h : ℕ → ℕ) (rw rh : ℕ) :
    ∀ m : ℕ, 5 ≤ m →
      5 ≤ adjust_font_size w h rw rh m ∧
      adjust_font_size w h rw rh m ≤ m ∧
      ((∃ s, 5 < s ∧ s ≤ m ∧ w s ≤ rw ∧ h s ≤ rh) →
        (w (adjust_font_size w h rw rh m) ≤ rw ∧
         h (adjust_font_size w h rw rh m) ≤ rh ∧
         ∀ s, s ≤ m → w s ≤ rw → h s ≤ rh → s ≤ adjust_font_size w h rw rh m)) ∧
      ((¬ ∃ s, 5 < s ∧ s ≤ m ∧ w s ≤ rw ∧ h s ≤ rh) →
        adjust_font_size w h rw rh m = 5) := by
  intro m
  induction m with
  | zero => omega
  | succ n ih =>
    intro h5
    by_cases hn : 5 ≤ n
    · have h51 : 5 < n + 1 := by omega
      rw [adjust_font_size, if_pos h51]
      by_cases hfit : w (n + 1) ≤ rw ∧ h (n + 1) ≤ rh
      · rw [if_pos hfit]
        refine ⟨by omega, le_refl _, fun _ => ⟨hfit.1, hfit.2, fun s hs _ _ => hs⟩,
          fun hno => absurd ⟨n + 1, h51, le_refl _, hfit.1, hfit.2⟩ hno⟩
      · rw [if_neg hfit]
        obtain ⟨i1, i2, i3, i4⟩ := ih hn
        refine ⟨i1, by omega, ?_, ?_⟩
        · intro hex
          obtain ⟨s, hs1, hs2, hs3, hs4⟩ := hex
          have hsn : s ≤ n := by
            rcases Nat.lt_or_ge s (n + 1) with hlt | hge
            · omega
            · exfalso
              have : s = n + 1 := by omega
              subst this
              exact hfit ⟨hs3, hs4⟩
          obtain ⟨j1, j2, j3⟩ := i3 ⟨s, hs1, hsn, hs3, hs4⟩
          refine ⟨j1, j2, fun t ht htw hth => ?_⟩
          have htn : t ≤ n := by
            rcases Nat.lt_or_ge t (n + 1) with hlt | hge
            · omega
            · exfalso
              have : t = n + 1 := by omega
              subst this
              exact hfit ⟨htw, hth⟩
          exact j3 t htn htw hth
        · intro hno
          refine i4 ?_
          intro ⟨s, hs1, hs2, hs3, hs4⟩
          exact hno ⟨s, hs1, by omega, hs3, hs4⟩
    · have hn5 : n + 1 = 5 := by omega
      rw [adjust_font_size, if_neg (by omega)]
      refine ⟨by omega, le_refl _, ?_, fun _ => hn5⟩
      intro ⟨s, hs1, hs2, _, _⟩
      omega

/-- **C5**: the font-size search starts at `max_size`, never fails, and
returns a size `r` with `5 ≤ r ≤ max_size`; `r` fits whenever any size in
`(5, max_size]` fits, in which case `r` dominates every fitting size
`≤ max_size`; and when no size in `(5, max_size]` fits, the floor size 5 is
returned (used anyway, best effort).  `max_size ≥ 5` as in the program,
which calls the search with `max_size = 45`. -/
theorem adjust_font_size_spec (w h : ℕ → ℕ) (rw rh maxSize : ℕ)
    (hmax : 5 ≤ maxSize) :
    5 ≤ adjust_font_size w h rw rh maxSize ∧
    adjust_font_size w h rw rh maxSize ≤ maxSize ∧
    ((∃ s, 5 < s ∧ s ≤ maxSize ∧ w s ≤ rw ∧ h s ≤ rh) →
      (w (adjust_font_size w h rw rh maxSize) ≤ rw ∧
       h (adjust_font_size w h rw rh maxSize) ≤ rh ∧
       ∀ s, s ≤ maxSize → w s ≤ rw → h s ≤ rh →
         s ≤ adjust_font_size w h rw rh maxSize)) ∧
    ((¬ ∃ s, 5 < s ∧ s ≤ maxSize ∧ w s ≤ rw ∧ h s ≤ rh) →
      adjust_font_size w h rw rh maxSize = 5) :=
  adjust_font_size_spec_aux w h rw rh maxSize hmax

theorem adjust_font_size_spec_witness :
    5 ≤ adjust_font_size (fun s => 10 * s) (fun s => s) 100 50 45 ∧
    adjust_font_size (fun s => 10 * s) (fun s => s) 100 50 45 ≤ 45 ∧
    10 * adjust_font_size (fun s => 10 * s) (fun s => s) 100 50 45 ≤ 100 ∧
    adjust_font_size (fun s => 10 * s) (fun s => s) 200 2 45 = 5 :=
  have h := adjust_font_size_spec (fun s => 10 * s) (fun s => s) 100 50 45
    (by decide)
  have h2 := adjust_font_size_spec (fun s => 10 * s) (fun s => s) 200 2 45
    (by decide)
  ⟨h.1, h.2.1, (h.2.2.1 ⟨10, by decide, by decide, by decide, by decide⟩).1,
   h2.2.2.2 (by
     rintro ⟨s, h1, _, _, h4⟩
     have h5 : s ≤ 2 := h4
     omega)⟩

/-! ### Layout geometry (app.py lines 237–280)

Boxes are axis-aligned rectangles `(x1, y1, x2, y2)` in canvas pixel
coordinates.  The code computes them from the module-level `video_width`
and `vertical_layout` (the canvas height is not used in the box
arithmetic); `timer_top_padding = 20` and `timer_height = 100`. -/

structure Region where
  x1 : ℕ
  y1 : ℕ
  x2 : ℕ
  y2 : ℕ
deriving DecidableEq

structure Layout where
  q_box_region : Region
  opt_a_box : Region
  opt_b_box : Region
  opt_c_box : Region
  opt_d_box : Region
  box_radius : ℕ
deriving DecidableEq

def timer_top_padding : ℕ := 20
def timer_height : ℕ := 100

/-- The box layout computed in `make_quiz_clip` for the given canvas width
and orientation flag. -/
def quiz_layout (video_width : ℕ) (vertical_layout : Bool) : Layout :=
  if !vertical_layout then
    -- 16:9 layout
    let margin := 50
    let q_box_top := timer_top_padding + timer_height + 20
    let q_box_height := 120
    let opt_width := (video_width - 3 * margin) / 2
    let opt_height := 60
    let opt_top_row_y := q_box_top + q_box_height + 30
    let opt_bottom_row_y := opt_top_row_y + opt_height + 30
    { q_box_region := ⟨margin, q_box_top, video_width - margin, q_box_top + q_box_height⟩
      opt_a_box := ⟨margin, opt_top_row_y, margin + opt_width, opt_top_row_y + opt_height⟩
      opt_b_box := ⟨video_width - margin - opt_width, opt_top_row_y,
                    video_width - margin, opt_top_row_y + opt_height⟩
      opt_c_box := ⟨margin, opt_bottom_row_y, margin + opt_width, opt_bottom_row_y + opt_height⟩
      opt_d_box := ⟨video_width - margin - opt_width, opt_bottom_row_y,
                    video_width - margin, opt_bottom_row_y + opt_height⟩
      box_radius := 20 }
  else
    -- 9:16 vertical layout
    let margin := 40
    let q_box_top := timer_top_padding + timer_height + 20
    let q_box_height := 150
    let opt_height := 60
    let opt_spacing := 25
    let a : Region := ⟨margin, q_box_top + q_box_height + 30, video_width - margin,
                       q_box_top + q_box_height + 30 + opt_height⟩
    let b : Region := ⟨margin, a.y2 + opt_spacing, video_width - margin,
                       a.y2 + opt_spacing + opt_height⟩
    let c : Region := ⟨margin, b.y2 + opt_spacing, video_width - margin,
                       b.y2 + opt_spacing + opt_height⟩
    let d : Region := ⟨margin, c.y2 + opt_spacing, video_width - margin,
                       c.y2 + opt_spacing + opt_height⟩
    { q_box_region := ⟨margin, q_box_top, video_width - margin, q_box_top + q_box_height⟩
      opt_a_box := a
      opt_b_box := b
      opt_c_box := c
      opt_d_box := d
      box_radius := 20 }

/-- A region is a well-formed box lying fully inside a `w × h` canvas. -/
def Region.insideCanvas (r : Region) (w h : ℕ) : Prop :=
  r.x1 < r.x2 ∧ r.y1 < r.y2 ∧ r.x2 ≤ w ∧ r.y2 ≤ h

/-- Two boxes do not overlap (share no interior point). -/
def Region.disjointWith (r s : Region) : Prop :=
  r.x2 ≤ s.x1 ∨ s.x2 ≤ r.x1 ∨ r.y2 ≤ s.y1 ∨ s.y2 ≤ r.y1

instance (r : Region) (w h : ℕ) : Decidable (r.insideCanvas w h) := by
  unfold Region.insideCanvas
  infer_instance

instance (r s : Region) : Decidable (r.disjointWith s) := by
  unfold Region.disjointWith
  infer_instance

/-- All five boxes of a layout sit inside the canvas and are pairwise
non-overlapping. -/
def Layout.wellPlaced (L : Layout) (w h : ℕ) : Prop :=
  L.q_box_region.insideCanvas w h ∧
  L.opt_a_box.insideCanvas w h ∧ L.opt_b_box.insideCanvas w h ∧
  L.opt_c_box.insideCanvas w h ∧ L.opt_d_box.insideCanvas w h ∧
  L.q_box_region.disjointWith L.opt_a_box ∧
  L.q_box_region.disjointWith L.opt_b_box ∧
  L.q_box_region.disjointWith L.opt_c_box ∧
  L.q_box_region.disjointWith L.opt_d_box ∧
  L.opt_a_box.disjointWith L.opt_b_box ∧
  L.opt_a_box.disjointWith L.opt_c_box ∧
  L.opt_a_box.disjointWith L.opt_d_box ∧
  L.opt_b_box.disjointWith L.opt_c_box ∧
  L.opt_b_box.disjointWith L.opt_d_box ∧
  L.opt_c_box.disjointWith L.opt_d_box

instance (L : Layout) (w h : ℕ) : Decidable (L.wellPlaced w h) := by
  unfold Layout.wellPlaced
  infer_instance

/-- **C7**: in both orientations (wide 1280×720 and tall 720×1280) the
question box and the four option boxes lie fully inside the canvas and are
pairwise non-overlapping, and every vertical offset after the timer is the
previous box's bottom edge plus a fixed gap constant (20 after the timer
block, 30 after the question box, 30 between option rows in the wide
layout, 25 between stacked options in the tall layout). -/
theorem layout_invariant :
    ((quiz_layout 1280 false).wellPlaced 1280 720 ∧
     (quiz_layout 1280 false).q_box_region.y1 =
       timer_top_padding + timer_height + 20 ∧
     (quiz_layout 1280 false).opt_a_box.y1 =
       (quiz_layout 1280 false).q_box_region.y2 + 30 ∧
     (quiz_layout 1280 false).opt_b_box.y1 =
       (quiz_layout 1280 false).q_box_region.y2 + 30 ∧
     (quiz_layout 1280 false).opt_c_box.y1 =
       (quiz_layout 1280 false).opt_a_box.y2 + 30 ∧
     (quiz_layout 1280 false).opt_d_box.y1 =
       (quiz_layout 1280 false).opt_b_box.y2 + 30) ∧
    ((quiz_layout 720 true).wellPlaced 720 1280 ∧
     (quiz_layout 720 true).q_box_region.y1 =
       timer_top_padding + timer_height + 20 ∧
     (quiz_layout 720 true).opt_a_box.y1 =
       (quiz_layout 720 true).q_box_region.y2 + 30 ∧
     (quiz_layout 720 true).opt_b_box.y1 =
       (quiz_layout 720 true).opt_a_box.y2 + 25 ∧
     (quiz_layout 720 true).opt_c_box.y1 =
       (quiz_layout 720 true).opt_b_box.y2 + 25 ∧
     (quiz_layout 720 true).opt_d_box.y1 =
       (quiz_layout 720 true).opt_c_box.y2 + 25) := by
  decide

/-! ### Chroma-key extraction: `remove_green` (app.py lines 340–348)

A pixel is an `(r, g, b)` byte triple; the per-pixel colour-space conversion
performed by the external `cv2.cvtColor(frame, COLOR_RGB2HSV)` call is kept
abstract as a function `toHSV` from a pixel to its `(h, s, v)` triple. -/

abbrev RGB := ℕ × ℕ × ℕ
abbrev RGBA := ℕ × ℕ × ℕ × ℕ
abbrev HSVTriple := ℕ × ℕ × ℕ

/-- `cv2.inRange(hsv, lower, upper)` for one pixel: all three channels lie
inside the closed bounds. -/
def inRangeHSV (lower upper hsv : HSVTriple) : Bool :=
  decide (lower.1 ≤ hsv.1 ∧ hsv.1 ≤ upper.1 ∧
    lower.2.1 ≤ hsv.2.1 ∧ hsv.2.1 ≤ upper.2.1 ∧
    lower.2.2 ≤ hsv.2.2 ∧ hsv.2.2 ≤ upper.2.2)

/-- The action of `remove_green` on one pixel: mask with
`lower_green = [40, 40, 40]`, `upper_green = [90, 255, 255]`, then
`alpha = np.where(mask == 255, 0, 255)`, keeping the colour channels. -/
def remove_green_pixel (toHSV : RGB → HSVTriple) (px : RGB) : RGBA :=
  let hsv := toHSV px
  let mask : ℕ := if inRangeHSV (40, 40, 40) (90, 255, 255) hsv then 255 else 0
  let alpha : ℕ := if mask = 255 then 0 else 255
  (px.1, px.2.1, px.2.2, alpha)

/-- `remove_green(frame)`: per-pixel masking of a whole frame (a list of
pixel rows). -/
def remove_green (toHSV : RGB → HSVTriple) (frame : List (List RGB)) :
    List (List RGBA) :=
  frame.map (fun row => row.map (remove_green_pixel toHSV))

theorem remove_green_pixel_eq (toHSV : RGB → HSVTriple) (px : RGB) :
    remove_green_pixel toHSV px =
      (px.1, px.2.1, px.2.2,
        if 40 ≤ (toHSV px).1 ∧ (toHSV px).1 ≤ 90 ∧
            40 ≤ (toHSV px).2.1 ∧ (toHSV px).2.1 ≤ 255 ∧
            40 ≤ (toHSV px).2.2 ∧ (toHSV px).2.2 ≤ 255
        then 0 else 255) := by
  by_cases h : 40 ≤ (toHSV px).1 ∧ (toHSV px).1 ≤ 90 ∧
      40 ≤ (toHSV px).2.1 ∧ (toHSV px).2.1 ≤ 255 ∧
      40 ≤ (toHSV px).2.2 ∧ (toHSV px).2.2 ≤ 255
  · simp [remove_green_pixel, inRangeHSV, h]
  · simp [remove_green_pixel, inRangeHSV, h]

/-- **C6**: the chroma-key extractor keeps every pixel's colour channels
unchanged and appends an alpha channel that is 0 exactly when the pixel's
hue/saturation/value triple lies inside the configured ranges
(hue 40–90, saturation 40–255, value 40–255) and 255 otherwise; the output
pixel at a position is a function of the input pixel at that position alone
(purely per-pixel), and the frame shape is preserved. -/
theorem remove_green_spec (toHSV : RGB → HSVTriple) (frame : List (List RGB)) :
    (∀ (i j : ℕ) (px : RGB),
      frame[i]?.bind (fun row => row[j]?) = some px →
      (remove_green toHSV frame)[i]?.bind (fun row => row[j]?) =
        some (px.1, px.2.1, px.2.2,
          if 40 ≤ (toHSV px).1 ∧ (toHSV px).1 ≤ 90 ∧
              40 ≤ (toHSV px).2.1 ∧ (toHSV px).2.1 ≤ 255 ∧
              40 ≤ (toHSV px).2.2 ∧ (toHSV px).2.2 ≤ 255
          then 0 else 255)) ∧
    (remove_green toHSV frame).length = frame.length ∧
    (∀ (i : ℕ) (row : List RGB), frame[i]? = some row →
      ∃ row2 : List RGBA, (remove_green toHSV frame)[i]? = some row2 ∧
        row2.length = row.length) := by
  refine ⟨?_, by simp [remove_green], ?_⟩
  · intro i j px hpx
    rw [remove_green, List.getElem?_map]
    cases hrow : frame[i]? with
    | none =>
      rw [hrow] at hpx
      simp at hpx
    | some row =>
      rw [hrow] at hpx
      simp only [Option.some_bind] at hpx
      simp [hpx, remove_green_pixel_eq]
  · intro i row hrow
    refine ⟨row.map (remove_green_pixel toHSV), ?_, by simp⟩
    rw [remove_green, List.getElem?_map, hrow]
    rfl

theorem remove_green_spec_witness :
    (remove_green (fun p => p) [[(50, 50, 50), (10, 20, 30)]])[0]?.bind
        (fun row => row[0]?) = some (50, 50, 50, 0) ∧
    (remove_green (fun p => p) [[(50, 50, 50), (10, 20, 30)]])[0]?.bind
        (fun row => row[1]?) = some (10, 20, 30, 255) := by
  constructor
  · have h := (remove_green_spec (fun p => p)
      [[(50, 50, 50), (10, 20, 30)]]).1 0 0 (50, 50, 50) (by rfl)
    simpa using h
  · have h := (remove_green_spec (fun p => p)
      [[(50, 50, 50), (10, 20, 30)]]).1 0 1 (10, 20, 30) (by rfl)
    simpa using h

/-! ### Answer-box resolution and the blinking overlay
(app.py lines 289–332 and 364–439) -/

def label_margin : ℕ := 15

/-- The text region inside an option box, shifted past the drawn label
(`label_width` is the metric of the label font on `"X:"`). -/
def opt_text_region (label_width : ℕ) (box : Region) : Region :=
  ⟨box.x1 + label_width + 2 * label_margin, box.y1, box.x2 - label_margin, box.y2⟩

/-- The four option strings passed to `make_quiz_clip`. -/
structure QuizTexts where
  opt_a_text : Str
  opt_b_text : Str
  opt_c_text : Str
  opt_d_text : Str

/-- Option text drawn into box A on the background
(`opt_a_text[2:] if opt_a_text.startswith("a)") else opt_a_text`). -/
def bg_opt_a_rendered (t : QuizTexts) : Str :=
  if startsWithStr ['a', ')'] t.opt_a_text then t.opt_a_text.drop 2 else t.opt_a_text

/-- Option text drawn into box B on the background. -/
def bg_opt_b_rendered (t : QuizTexts) : Str :=
  if startsWithStr ['b', ')'] t.opt_b_text then t.opt_b_text.drop 2 else t.opt_b_text

/-- Option text drawn into box C on the background. -/
def bg_opt_c_rendered (t : QuizTexts) : Str :=
  if startsWithStr ['c', ')'] t.opt_c_text then t.opt_c_text.drop 2 else t.opt_c_text

/-- Option text drawn into box D on the background. -/
def bg_opt_d_rendered (t : QuizTexts) : Str :=
  if startsWithStr ['d', ')'] t.opt_d_text then t.opt_d_text.drop 2 else t.opt_d_text

/-- Answer-box resolution (app.py lines 364–374): test the options in the
order A, B, C, D on the lowercased, stripped answer; a test passes when the
marker occurs as a substring or the letter is the first character. -/
def answer_box (lay : Layout) (answer_text : Str) : Option Region :=
  let al := pyStrip (pyLower answer_text)
  if strHasSub ['a', ')'] al || startsWithStr ['a'] al then some lay.opt_a_box
  else if strHasSub ['b', ')'] al || startsWithStr ['b'] al then some lay.opt_b_box
  else if strHasSub ['c', ')'] al || startsWithStr ['c'] al then some lay.opt_c_box
  else if strHasSub ['d', ')'] al || startsWithStr ['d'] al then some lay.opt_d_box
  else none

def blink_duration : ℕ := 3
def fps : ℕ := 24
def blink_frames : ℕ := blink_duration * fps
def blink_period : ℕ := 8
def on_frames : ℕ := blink_period / 2
def off_frames : ℕ := blink_period - blink_period / 2

/-- One frame of the blinking overlay: either fully transparent, or the
answer box filled translucent green with the option label and option text
drawn back on top. -/
inductive BlinkFrame where
  | transparent : BlinkFrame
  | highlight (box : Region) (radius : ℕ) (label : Str) (text : Str)
      (textRegion : Region) : BlinkFrame
deriving DecidableEq

/-- The overlay frame built at index `frame_num` of the blink loop
(app.py lines 383–432); the label, text and text region are selected by
comparing `answer_box` against the four option boxes, as in the code. -/
def blink_frame_at (lay : Layout) (t : QuizTexts) (label_width : ℕ)
    (answer_text : Str) (frame_num : ℕ) : BlinkFrame :=
  match answer_box lay answer_text with
  | none => .transparent
  | some box =>
    if frame_num % blink_period < blink_period / 2 then
      let label : Str :=
        if box = lay.opt_a_box then ['A', ':']
        else if box = lay.opt_b_box then ['B', ':']
        else if box = lay.opt_c_box then ['C', ':']
        else if box = lay.opt_d_box then ['D', ':']
        else []
      let text : Str :=
        if box = lay.opt_a_box then bg_opt_a_rendered t
        else if box = lay.opt_b_box then bg_opt_b_rendered t
        else if box = lay.opt_c_box then bg_opt_c_rendered t
        else if box = lay.opt_d_box then bg_opt_d_rendered t
        else []
      let tr : Region :=
        if box = lay.opt_a_box then opt_text_region label_width lay.opt_a_box
        else if box = lay.opt_b_box then opt_text_region label_width lay.opt_b_box
        else if box = lay.opt_c_box then opt_text_region label_width lay.opt_c_box
        else if box = lay.opt_d_box then opt_text_region label_width lay.opt_d_box
        else ⟨0, 0, 0, 0⟩
      .highlight box lay.box_radius label text tr
    else .transparent

/-- The precomputed list `blinking_frames` of the overlay. -/
def blinking_frames (lay : Layout) (t : QuizTexts) (label_width : ℕ)
    (answer_text : Str) : List BlinkFrame :=
  (List.range blink_frames).map (blink_frame_at lay t label_width answer_text)

/-- Python `int()` on a rational: truncation toward zero. -/
def pyInt (q : ℚ) : ℤ := if 0 ≤ q then ⌊q⌋ else -⌊-q⌋

/-- `make_blink_frame(t)`: sample the blink overlay at continuous time `t`
(`frame_idx = int(t * fps) % len(blinking_frames)`). -/
def make_blink_frame (lay : Layout) (t : QuizTexts) (label_width : ℕ)
    (answer_text : Str) (tq : ℚ) : BlinkFrame :=
  let frames := blinking_frames lay t label_width answer_text
  frames.getD (pyInt (tq * (fps : ℚ)) % (frames.length : ℤ)).toNat .transparent

def BlinkFrame.isHighlighted : BlinkFrame → Bool
  | .transparent => false
  | .highlight _ _ _ _ _ => true

/-! ### Lemmas on substring tests and answer resolution -/

theorem startsWithStr_iff (p s : Str) :
    startsWithStr p s = true ↔ ∃ r, s = p ++ r := by
  rw [startsWithStr, decide_eq_true_iff]
  constructor
  · intro h
    refine ⟨s.drop p.length, ?_⟩
    conv_lhs => rw [← List.take_append_drop p.length s]
    rw [h]
  · rintro ⟨r, rfl⟩
    exact List.take_left p r

theorem startsWithStr_single (c : Char) (s : Str) :
    startsWithStr [c] s = true ↔ s.head? = some c := by
  cases s with
  | nil => simp [startsWithStr]
  | cons a t =>
    simp [startsWithStr, List.take, eq_comm]

theorem strHasSub_iff (p : Str) :
    ∀ s : Str, strHasSub p s = true ↔ ∃ l r, s = l ++ p ++ r := by
  intro s
  induction s with
  | nil =>
    rw [strHasSub, startsWithStr_iff]
    constructor
    · rintro ⟨r, hr⟩
      exact ⟨[], r, hr⟩
    · rintro ⟨l, r, hr⟩
      have hp : p = [] := by
        cases l with
        | nil =>
          cases p with
          | nil => rfl
          | cons x p2 => simp at hr
        | cons x l2 => simp at hr
      exact ⟨[], by simp [hp]⟩
  | cons a t ih =>
    rw [strHasSub, Bool.or_eq_true, startsWithStr_iff, ih]
    constructor
    · rintro (⟨r, hr⟩ | ⟨l, r, hr⟩)
      · exact ⟨[], r, by simpa using hr⟩
      · exact ⟨a :: l, r, by simp [hr]⟩
    · rintro ⟨l, r, hr⟩
      cases l with
      | nil =>
        exact Or.inl ⟨r, by simpa using hr⟩
      | cons x l2 =>
        simp only [List.cons_append, List.cons.injEq] at hr
        exact Or.inr ⟨l2, r, hr.2⟩

/-- One test of the answer-resolution chain, as a proposition: the marker
`c)` occurs in the processed answer, or `c` is its first character. -/
def opt_test (c : Char) (al : Str) : Prop :=
  strHasSub [c, ')'] al = true ∨ al.head? = some c

instance (c : Char) (al : Str) : Decidable (opt_test c al) := by
  unfold opt_test
  infer_instance

theorem opt_test_iff_cond (c : Char) (al : Str) :
    (strHasSub [c, ')'] al || startsWithStr [c] al) = true ↔ opt_test c al := by
  rw [Bool.or_eq_true, startsWithStr_single]
  exact Iff.rfl

theorem answer_box_eq (lay : Layout) (ans : Str) :
    answer_box lay ans =
      (if opt_test 'a' (pyStrip (pyLower ans)) then some lay.opt_a_box
       else if opt_test 'b' (pyStrip (pyLower ans)) then some lay.opt_b_box
       else if opt_test 'c' (pyStrip (pyLower ans)) then some lay.opt_c_box
       else if opt_test 'd' (pyStrip (pyLower ans)) then some lay.opt_d_box
       else none) := by
  simp only [answer_box]
  by_cases ha : opt_test 'a' (pyStrip (pyLower ans))
  · rw [if_pos ((opt_test_iff_cond 'a' _).mpr ha), if_pos ha]
  · rw [if_neg (fun h => ha ((opt_test_iff_cond 'a' _).mp h)), if_neg ha]
    by_cases hb : opt_test 'b' (pyStrip (pyLower ans))
    · rw [if_pos ((opt_test_iff_cond 'b' _).mpr hb), if_pos hb]
    · rw [if_neg (fun h => hb ((opt_test_iff_cond 'b' _).mp h)), if_neg hb]
      by_cases hc : opt_test 'c' (pyStrip (pyLower ans))
      · rw [if_pos ((opt_test_iff_cond 'c' _).mpr hc), if_pos hc]
      · rw [if_neg (fun h => hc ((opt_test_iff_cond 'c' _).mp h)), if_neg hc]
        by_cases hd : opt_test 'd' (pyStrip (pyLower ans))
        · rw [if_pos ((opt_test_iff_cond 'd' _).mpr hd), if_pos hd]
        · rw [if_neg (fun h => hd ((opt_test_iff_cond 'd' _).mp h)), if_neg hd]

/-- **C9**: answer-box resolution tests A, B, C, D in that fixed order on the
lowercased, stripped answer; a test passes when the option's marker occurs
anywhere as a substring or its letter is the first character; any answer
whose processed text begins with 'a' resolves to option A regardless of the
rest; and no box is selected exactly when all four tests fail. -/
theorem answer_resolution (lay : Layout) (ans : Str) :
    ((pyStrip (pyLower ans)).head? = some 'a' →
      answer_box lay ans = some lay.opt_a_box) ∧
    (opt_test 'a' (pyStrip (pyLower ans)) →
      answer_box lay ans = some lay.opt_a_box) ∧
    (¬ opt_test 'a' (pyStrip (pyLower ans)) →
      opt_test 'b' (pyStrip (pyLower ans)) →
      answer_box lay ans = some lay.opt_b_box) ∧
    (¬ opt_test 'a' (pyStrip (pyLower ans)) →
      ¬ opt_test 'b' (pyStrip (pyLower ans)) →
      opt_test 'c' (pyStrip (pyLower ans)) →
      answer_box lay ans = some lay.opt_c_box) ∧
    (¬ opt_test 'a' (pyStrip (pyLower ans)) →
      ¬ opt_test 'b' (pyStrip (pyLower ans)) →
      ¬ opt_test 'c' (pyStrip (pyLower ans)) →
      opt_test 'd' (pyStrip (pyLower ans)) →
      answer_box lay ans = some lay.opt_d_box) ∧
    (answer_box lay ans = none ↔
      ¬ opt_test 'a' (pyStrip (pyLower ans)) ∧
      ¬ opt_test 'b' (pyStrip (pyLower ans)) ∧
      ¬ opt_test 'c' (pyStrip (pyLower ans)) ∧
      ¬ opt_test 'd' (pyStrip (pyLower ans))) ∧
    (∀ p : Str, strHasSub p (pyStrip (pyLower ans)) = true ↔
      ∃ l r, pyStrip (pyLower ans) = l ++ p ++ r) := by
  refine ⟨fun h => ?_, fun h => ?_, fun h1 h2 => ?_, fun h1 h2 h3 => ?_,
    fun h1 h2 h3 h4 => ?_, ?_, fun p => strHasSub_iff p _⟩
  · rw [answer_box_eq,
      if_pos (show opt_test 'a' (pyStrip (pyLower ans)) from Or.inr h)]
  · rw [answer_box_eq, if_pos h]
  · rw [answer_box_eq, if_neg h1, if_pos h2]
  · rw [answer_box_eq, if_neg h1, if_neg h2, if_pos h3]
  · rw [answer_box_eq, if_neg h1, if_neg h2, if_neg h3, if_pos h4]
  · rw [answer_box_eq]
    constructor
    · intro h
      split_ifs at h with h1 h2 h3 h4
      all_goals simp_all
    · rintro ⟨h1, h2, h3, h4⟩
      rw [if_neg h1, if_neg h2, if_neg h3, if_neg h4]

theorem answer_resolution_witness :
    answer_box (quiz_layout 1280 false) ['A', 'l', 's', 'o', ' ', 'd', ')'] =
      some (quiz_layout 1280 false).opt_a_box ∧
    answer_box (quiz_layout 1280 false) [' ', 'B', ')', ' ', 'x'] =
      some (quiz_layout 1280 false).opt_b_box ∧
    answer_box (quiz_layout 1280 false) ['4', '2'] = none :=
  ⟨(answer_resolution (quiz_layout 1280 false) _).1 (by decide),
   (answer_resolution (quiz_layout 1280 false) _).2.2.1 (by decide) (by decide),
   ((answer_resolution (quiz_layout 1280 false) _).2.2.2.2.2.1).mpr
     ⟨by decide, by decide, by decide, by decide⟩⟩

/-! ### Blink periodicity and degradation -/

theorem getD_of_all {α : Type} (l : List α) (d : α) (n : ℕ)
    (h : ∀ x ∈ l, x = d) : l.getD n d = d := by
  rw [List.getD_eq_getElem?_getD]
  cases hn : l[n]? with
  | none => rfl
  | some x =>
    have hx : x ∈ l := List.getElem?_mem hn
    simp [h x hx]

theorem blinking_frames_length (lay : Layout) (t : QuizTexts) (lw : ℕ)
    (ans : Str) : (blinking_frames lay t lw ans).length = 72 := by
  simp [blinking_frames, blink_frames, blink_duration, fps]

theorem blinking_frames_getD (lay : Layout) (t : QuizTexts) (lw : ℕ)
    (ans : Str) (i : ℕ) (h : i < blink_frames) :
    (blinking_frames lay t lw ans).getD i .transparent =
      blink_frame_at lay t lw ans i := by
  rw [blinking_frames, List.getD_eq_getElem?_getD, List.getElem?_map,
      List.getElem?_range h]
  rfl

theorem toNat_emod_eq (x : ℤ) (n : ℕ) (hx : 0 ≤ x) :
    (x % (n : ℤ)).toNat = x.toNat % n := by
  obtain ⟨m, rfl⟩ := Int.eq_ofNat_of_zero_le hx
  rw [Int.toNat_natCast]
  omega

/-- **C2**: the blink overlay is 72 frames long (3 seconds at 24 fps); given
a resolved answer box, frame `i` is the highlighted frame iff
`i mod (on_frames + off_frames) < on_frames` with `on_frames = off_frames
= 4` (so frames 0–3 on, 4–7 off, repeating with period 8), and sampling at
continuous time `t ≥ 0` selects frame `⌊t·24⌋ mod 72`, identically for
repeated queries at the same time. -/
theorem blink_periodicity (lay : Layout) (t : QuizTexts) (lw : ℕ) (ans : Str)
    (b : Region) (hb : answer_box lay ans = some b) :
    (blinking_frames lay t lw ans).length = 72 ∧
    blink_frames = blink_duration * fps ∧
    blink_duration * fps = 72 ∧
    on_frames = 4 ∧ off_frames = 4 ∧
    (∀ i : ℕ, i < 72 →
      (((blinking_frames lay t lw ans).getD i .transparent).isHighlighted
          = true ↔ i % (on_frames + off_frames) < on_frames)) ∧
    (∀ i : ℕ, i + 8 < 72 →
      (blinking_frames lay t lw ans).getD (i + 8) .transparent =
        (blinking_frames lay t lw ans).getD i .transparent) ∧
    (∀ tq : ℚ, 0 ≤ tq →
      make_blink_frame lay t lw ans tq =
        (blinking_frames lay t lw ans).getD (⌊tq * 24⌋.toNat % 72)
          .transparent) ∧
    (∀ t1 t2 : ℚ, t1 = t2 →
      make_blink_frame lay t lw ans t1 = make_blink_frame lay t lw ans t2) := by
  have h72 : blink_frames = 72 := by decide
  refine ⟨blinking_frames_length lay t lw ans, rfl, by decide, by decide,
    by decide, ?_, ?_, ?_, fun t1 t2 h => by rw [h]⟩
  · intro i hi
    rw [blinking_frames_getD lay t lw ans i (by omega)]
    simp only [blink_frame_at, hb]
    by_cases hc : i % blink_period < blink_period / 2
    · rw [if_pos hc]
      simp only [BlinkFrame.isHighlighted]
      simp only [blink_period] at hc
      simp only [on_frames, off_frames, blink_period]
      constructor
      · intro _
        omega
      · intro _
        trivial
    · rw [if_neg hc]
      simp only [BlinkFrame.isHighlighted]
      simp only [blink_period] at hc
      simp only [on_frames, off_frames, blink_period]
      constructor
      · intro h2
        simp at h2
      · intro h2
        omega
  · intro i hi
    rw [blinking_frames_getD lay t lw ans (i + 8) (by omega),
        blinking_frames_getD lay t lw ans i (by omega)]
    simp only [blink_frame_at, hb]
    have : (i + 8) % blink_period = i % blink_period := by
      simp only [blink_period]
      omega
    rw [this]
  · intro tq htq
    rw [make_blink_frame]
    have hlen : (blinking_frames lay t lw ans).length = 72 :=
      blinking_frames_length lay t lw ans
    rw [hlen]
    have hmul : (0 : ℚ) ≤ tq * (fps : ℚ) := by
      have : (0 : ℚ) ≤ (fps : ℚ) := by
        simp [fps]
      exact mul_nonneg htq this
    rw [pyInt, if_pos hmul]
    have hfloor : (0 : ℤ) ≤ ⌊tq * (fps : ℚ)⌋ := Int.floor_nonneg.mpr hmul
    rw [toNat_emod_eq _ 72 hfloor]
    have hfps : (fps : ℚ) = 24 := by
      simp [fps]
    rw [hfps]

theorem blink_periodicity_witness :
    (blinking_frames (quiz_layout 1280 false)
        ⟨['a', ')', 'x'], ['b', ')', 'y'], ['c', ')', 'z'], ['d', ')', 'w']⟩
        20 ['a', ')']).length = 72 ∧
    ((blinking_frames (quiz_layout 1280 false)
        ⟨['a', ')', 'x'], ['b', ')', 'y'], ['c', ')', 'z'], ['d', ')', 'w']⟩
        20 ['a', ')']).getD 2 .transparent).isHighlighted = true ∧
    ¬ ((blinking_frames (quiz_layout 1280 false)
        ⟨['a', ')', 'x'], ['b', ')', 'y'], ['c', ')', 'z'], ['d', ')', 'w']⟩
        20 ['a', ')']).getD 5 .transparent).isHighlighted = true ∧
    make_blink_frame (quiz_layout 1280 false)
        ⟨['a', ')', 'x'], ['b', ')', 'y'], ['c', ')', 'z'], ['d', ')', 'w']⟩
        20 ['a', ')'] (1 / 2) =
      (blinking_frames (quiz_layout 1280 false)
        ⟨['a', ')', 'x'], ['b', ')', 'y'], ['c', ')', 'z'], ['d', ')', 'w']⟩
        20 ['a', ')']).getD (⌊(1 / 2 : ℚ) * 24⌋.toNat % 72) .transparent :=
  have h := blink_periodicity (quiz_layout 1280 false)
    ⟨['a', ')', 'x'], ['b', ')', 'y'], ['c', ')', 'z'], ['d', ')', 'w']⟩
    20 ['a', ')'] (quiz_layout 1280 false).opt_a_box (by decide)
  ⟨h.1, (h.2.2.2.2.2.1 2 (by decide)).mpr (by decide),
   fun hc => absurd ((h.2.2.2.2.2.1 5 (by decide)).mp hc) (by decide),
   h.2.2.2.2.2.2.2.1 (1 / 2) (by norm_num)⟩

/-- **C8**: when no answer box can be resolved from the answer text, every
frame of the blink overlay is fully transparent and sampling at any time
yields the transparent frame — the generator never fails. -/
theorem blink_degradation (lay : Layout) (t : QuizTexts) (lw : ℕ) (ans : Str)
    (h : answer_box lay ans = none) :
    (∀ f ∈ blinking_frames lay t lw ans, f = .transparent) ∧
    (∀ tq : ℚ, make_blink_frame lay t lw ans tq = .transparent) := by
  have hall : ∀ i : ℕ, blink_frame_at lay t lw ans i = .transparent := by
    intro i
    rw [blink_frame_at, h]
  have hmem : ∀ f ∈ blinking_frames lay t lw ans, f = .transparent := by
    intro f hf
    obtain ⟨i, _, rfl⟩ := List.mem_map.mp hf
    exact hall i
  refine ⟨hmem, fun tq => ?_⟩
  rw [make_blink_frame]
  exact getD_of_all _ _ _ hmem

theorem blink_degradation_witness :
    make_blink_frame (quiz_layout 1280 false)
        ⟨['a', ')', 'x'], ['b', ')', 'y'], ['c', ')', 'z'], ['d', ')', 'w']⟩
        20 ['4', '2'] 0 = .transparent ∧
    make_blink_frame (quiz_layout 720 true)
        ⟨['a', ')', 'x'], ['b', ')', 'y'], ['c', ')', 'z'], ['d', ')', 'w']⟩
        20 ['4', '2'] (23 / 2) = .transparent :=
  ⟨(blink_degradation (quiz_layout 1280 false) _ 20 ['4', '2'] (by decide)).2 0,
   (blink_degradation (quiz_layout 720 true) _ 20 ['4', '2'] (by decide)).2
     (23 / 2)⟩

/-! ### Option-label prefix stripping -/

/-- **C10**: the text rendered for each option slot — on the background and
inside the blink overlay — is the option string with its first two
characters removed exactly when the string starts with that slot's
lowercase marker (`a)`, `b)`, `c)`, `d)`), and the string unchanged
otherwise (an uppercase or differently formatted marker is rendered
verbatim); when the blink overlay highlights a slot's box it draws exactly
that slot's rendered text.  The box-equality hypotheses reflect the
overlay's dispatch on box identity (satisfied in both program layouts,
whose boxes are pairwise distinct). -/
theorem option_prefix_strip (t : QuizTexts) (lay : Layout) (lw : ℕ)
    (ans : Str) :
    (startsWithStr ['a', ')'] t.opt_a_text = true →
      bg_opt_a_rendered t = t.opt_a_text.drop 2) ∧
    (startsWithStr ['a', ')'] t.opt_a_text = false →
      bg_opt_a_rendered t = t.opt_a_text) ∧
    (startsWithStr ['b', ')'] t.opt_b_text = true →
      bg_opt_b_rendered t = t.opt_b_text.drop 2) ∧
    (startsWithStr ['b', ')'] t.opt_b_text = false →
      bg_opt_b_rendered t = t.opt_b_text) ∧
    (startsWithStr ['c', ')'] t.opt_c_text = true →
      bg_opt_c_rendered t = t.opt_c_text.drop 2) ∧
    (startsWithStr ['c', ')'] t.opt_c_text = false →
      bg_opt_c_rendered t = t.opt_c_text) ∧
    (startsWithStr ['d', ')'] t.opt_d_text = true →
      bg_opt_d_rendered t = t.opt_d_text.drop 2) ∧
    (startsWithStr ['d', ')'] t.opt_d_text = false →
      bg_opt_d_rendered t = t.opt_d_text) ∧
    (answer_box lay ans = some lay.opt_a_box →
      ∀ i : ℕ, i % blink_period < blink_period / 2 →
        blink_frame_at lay t lw ans i =
          .highlight lay.opt_a_box lay.box_radius ['A', ':']
            (bg_opt_a_rendered t) (opt_text_region lw lay.opt_a_box)) ∧
    (lay.opt_b_box ≠ lay.opt_a_box →
      answer_box lay ans = some lay.opt_b_box →
      ∀ i : ℕ, i % blink_period < blink_period / 2 →
        blink_frame_at lay t lw ans i =
          .highlight lay.opt_b_box lay.box_radius ['B', ':']
            (bg_opt_b_rendered t) (opt_text_region lw lay.opt_b_box)) ∧
    (lay.opt_c_box ≠ lay.opt_a_box → lay.opt_c_box ≠ lay.opt_b_box →
      answer_box lay ans = some lay.opt_c_box →
      ∀ i : ℕ, i % blink_period < blink_period / 2 →
        blink_frame_at lay t lw ans i =
          .highlight lay.opt_c_box lay.box_radius ['C', ':']
            (bg_opt_c_rendered t) (opt_text_region lw lay.opt_c_box)) ∧
    (lay.opt_d_box ≠ lay.opt_a_box → lay.opt_d_box ≠ lay.opt_b_box →
      lay.opt_d_box ≠ lay.opt_c_box →
      answer_box lay ans = some lay.opt_d_box →
      ∀ i : ℕ, i % blink_period < blink_period / 2 →
        blink_frame_at lay t lw ans i =
          .highlight lay.opt_d_box lay.box_radius ['D', ':']
            (bg_opt_d_rendered t) (opt_text_region lw lay.opt_d_box)) := by
  refine ⟨fun h => by simp [bg_opt_a_rendered, h],
    fun h => by simp [bg_opt_a_rendered, h],
    fun h => by simp [bg_opt_b_rendered, h],
    fun h => by simp [bg_opt_b_rendered, h],
    fun h => by simp [bg_opt_c_rendered, h],
    fun h => by simp [bg_opt_c_rendered, h],
    fun h => by simp [bg_opt_d_rendered, h],
    fun h => by simp [bg_opt_d_rendered, h],
    fun hab i hi => ?_, fun hne hab i hi => ?_,
    fun hne1 hne2 hab i hi => ?_, fun hne1 hne2 hne3 hab i hi => ?_⟩
  · simp only [blink_frame_at, hab, if_pos hi, if_pos rfl]
    simp
  · simp only [blink_frame_at, hab, if_pos hi, if_neg hne, if_pos rfl]
    simp
  · simp only [blink_frame_at, hab, if_pos hi, if_neg hne1, if_neg hne2,
      if_pos rfl]
    simp
  · simp only [blink_frame_at, hab, if_pos hi, if_neg hne1, if_neg hne2,
      if_neg hne3, if_pos rfl]
    simp

theorem option_prefix_strip_witness :
    bg_opt_a_rendered ⟨['a', ')', 'P'], ['B', ')', 'Q'], ['c', ')', 'R'],
      ['D', ')', 'S']⟩ = ['P'] ∧
    bg_opt_b_rendered ⟨['a', ')', 'P'], ['B', ')', 'Q'], ['c', ')', 'R'],
      ['D', ')', 'S']⟩ = ['B', ')', 'Q'] ∧
    blink_frame_at (quiz_layout 1280 false)
        ⟨['a', ')', 'P'], ['B', ')', 'Q'], ['c', ')', 'R'], ['D', ')', 'S']⟩
        20 ['b', ')'] 1 =
      .highlight (quiz_layout 1280 false).opt_b_box
        (quiz_layout 1280 false).box_radius ['B', ':'] ['B', ')', 'Q']
        (opt_text_region 20 (quiz_layout 1280 false).opt_b_box) := by
  refine ⟨?_, ?_, ?_⟩
  · have h := (option_prefix_strip
      ⟨['a', ')', 'P'], ['B', ')', 'Q'], ['c', ')', 'R'], ['D', ')', 'S']⟩
      (quiz_layout 1280 false) 20 ['b', ')']).1 (by decide)
    simpa using h
  · exact (option_prefix_strip
      ⟨['a', ')', 'P'], ['B', ')', 'Q'], ['c', ')', 'R'], ['D', ')', 'S']⟩
      (quiz_layout 1280 false) 20 ['b', ')']).2.2.2.1 (by decide)
  · have h := (option_prefix_strip
      ⟨['a', ')', 'P'], ['B', ')', 'Q'], ['c', ')', 'R'], ['D', ')', 'S']⟩
      (quiz_layout 1280 false) 20 ['b', ')']).2.2.2.2.2.2.2.2.2.1
      (by decide) (by decide) 1 (by decide)
    rw [h]
    have hb : bg_opt_b_rendered
        ⟨['a', ')', 'P'], ['B', ')', 'Q'], ['c', ')', 'R'], ['D', ')', 'S']⟩
        = ['B', ')', 'Q'] := by decide
    rw [hb]

/-! ### Clip sequencer: `concatenate_videoclips` (app.py lines 148–154) -/

/-- A fixed-duration frame source (a `moviepy` clip): duration, frame
function of local time, and raster size. -/
structure VClip (F : Type) where
  duration : ℚ
  frame : ℚ → F
  size : ℕ × ℕ

/-- A clip placed on a composite timeline (`clip.with_start(start)`). -/
structure TimedClip (F : Type) where
  clip : VClip F
  start : ℚ

/-- The value built by `CompositeVideoClip(new_clips, size=clips[0].size)`
followed by `.with_duration(start)`. -/
structure CompositeTimeline (F : Type) where
  layers : List (TimedClip F)
  size : ℕ × ℕ
  duration : ℚ

inductive PyErr where
  | indexError : PyErr
  | emptyInputError : PyErr
deriving DecidableEq

/-- Python list indexing `l[i]`, raising `IndexError` out of range. -/
def pyGetElem {α : Type} (l : List α) (i : ℕ) : Except PyErr α :=
  if h : i < l.length then .ok (l.get ⟨i, h⟩) else .error .indexError

/-- The loop of `concatenate_videoclips`: running start offset plus the
accumulated `new_clips`. -/
def layoutClips {F : Type} (clips : List (VClip F)) :
    ℚ × List (TimedClip F) :=
  clips.foldl (fun acc c => (acc.1 + c.duration, acc.2 ++ [⟨c, acc.1⟩])) (0, [])

/-- `concatenate_videoclips(clips)`: start each clip at the running sum of
the previous durations and composite with size `clips[0].size` and total
duration the final running sum.  The code indexes `clips[0]`
unconditionally, so an empty list raises `IndexError`. -/
def concatenate_videoclips {F : Type} (clips : List (VClip F)) :
    Except PyErr (CompositeTimeline F) :=
  let st := layoutClips clips
  (pyGetElem clips 0).map (fun c0 => ⟨st.2, c0.size, st.1⟩)

/-- Modelled from the spec: frame sampling of the external library's
composite (`CompositeVideoClip` is a collaborator, not code of this
repository) — a layer is active at global time `t` iff
`start ≤ t < start + duration`; active layers are sampled at local time
`t - start`, later layers drawn on top. -/
def CompositeTimeline.sample {F : Type} [Inhabited F]
    (comp : CompositeTimeline F) (t : ℚ) : F :=
  comp.layers.foldl
    (fun acc l =>
      if l.start ≤ t ∧ t < l.start + l.clip.duration
      then l.clip.frame (t - l.start) else acc)
    default

/-- Reference placement: clip `k` starts at `s0` plus the sum of the
durations of clips `0..k-1`. -/
def startsFrom {F : Type} (s0 : ℚ) : List (VClip F) → List (TimedClip F)
  | [] => []
  | c :: cs => ⟨c, s0⟩ :: startsFrom (s0 + c.duration) cs

def durSum {F : Type} (clips : List (VClip F)) : ℚ :=
  (clips.map (fun c => c.duration)).sum

def prefixDur {F : Type} (clips : List (VClip F)) (k : ℕ) : ℚ :=
  durSum (clips.take k)

/-- Reference dispatcher of a global time to a clip and its local time. -/
def dispatchClip {F : Type} : ℚ → ℚ → List (VClip F) → Option (VClip F × ℚ)
  | _, _, [] => none
  | s0, t, c :: cs =>
    if t < s0 + c.duration then some (c, t - s0)
    else dispatchClip (s0 + c.duration) t cs

theorem layoutClips_foldl {F : Type} :
    ∀ (clips : List (VClip F)) (s0 : ℚ) (acc : List (TimedClip F)),
      clips.foldl
          (fun acc c => (acc.1 + c.duration, acc.2 ++ [⟨c, acc.1⟩])) (s0, acc)
        = (s0 + durSum clips, acc ++ startsFrom s0 clips) := by
  intro clips
  induction clips with
  | nil =>
    intro s0 acc
    simp [durSum, startsFrom]
  | cons c cs ih =>
    intro s0 acc
    rw [List.foldl_cons, ih]
    simp [durSum, startsFrom]
    ring

theorem layoutClips_eq {F : Type} (clips : List (VClip F)) :
    layoutClips clips = (durSum clips, startsFrom 0 clips) := by
  rw [layoutClips, layoutClips_foldl]
  simp

theorem durSum_nonneg {F : Type} (clips : List (VClip F))
    (hd : ∀ c ∈ clips, 0 ≤ c.duration) : 0 ≤ durSum clips := by
  refine List.sum_nonneg ?_
  intro x hx
  obtain ⟨c, hc, rfl⟩ := List.mem_map.mp hx
  exact hd c hc

theorem prefixDur_nonneg {F : Type} (clips : List (VClip F)) (k : ℕ)
    (hd : ∀ c ∈ clips, 0 ≤ c.duration) : 0 ≤ prefixDur clips k :=
  durSum_nonneg _ (fun c hc => hd c (List.take_subset k clips hc))

theorem prefixDur_zero {F : Type} (clips : List (VClip F)) :
    prefixDur clips 0 = 0 := by
  simp [prefixDur, durSum]

theorem prefixDur_cons_succ {F : Type} (c : VClip F) (cs : List (VClip F))
    (k : ℕ) : prefixDur (c :: cs) (k + 1) = c.duration + prefixDur cs k := by
  simp [prefixDur, durSum, List.take_succ_cons]

theorem prefixDur_succ {F : Type} (clips : List (VClip F)) (k : ℕ)
    (hk : k < clips.length) :
    prefixDur clips (k + 1) = prefixDur clips k + (clips.get ⟨k, hk⟩).duration := by
  induction clips generalizing k with
  | nil => simp at hk
  | cons c cs ih =>
    cases k with
    | zero => simp [prefixDur_cons_succ, prefixDur_zero]
    | succ k =>
      rw [prefixDur_cons_succ, prefixDur_cons_succ,
          ih k (by simpa using Nat.lt_of_succ_lt_succ hk)]
      rw [add_assoc]
      rfl

theorem prefixDur_mono {F : Type} (clips : List (VClip F))
    (hd : ∀ c ∈ clips, 0 ≤ c.duration) :
    ∀ j k : ℕ, j ≤ k → k ≤ clips.length →
      prefixDur clips j ≤ prefixDur clips k := by
  intro j k
  induction k with
  | zero =>
    intro hj _
    have : j = 0 := by omega
    subst this
    exact le_refl _
  | succ k ih =>
    intro hj hk
    by_cases hjk : j = k + 1
    · subst hjk
      exact le_refl _
    · have h1 : j ≤ k := by omega
      have hklen : k < clips.length := by omega
      calc prefixDur clips j ≤ prefixDur clips k := ih h1 (by omega)
        _ ≤ prefixDur clips (k + 1) := by
          rw [prefixDur_succ clips k hklen]
          have := hd (clips.get ⟨k, hklen⟩) (clips.get_mem _ _)
          linarith

theorem startsFrom_getElem {F : Type} :
    ∀ (clips : List (VClip F)) (s0 : ℚ) (k : ℕ) (hk : k < clips.length),
      (startsFrom s0 clips)[k]? =
        some ⟨clips.get ⟨k, hk⟩, s0 + prefixDur clips k⟩ := by
  intro clips
  induction clips with
  | nil =>
    intro s0 k hk
    simp at hk
  | cons c cs ih =>
    intro s0 k hk
    cases k with
    | zero => simp [startsFrom, prefixDur_zero]
    | succ k =>
      rw [startsFrom]
      have hk2 : k < cs.length := by simpa using Nat.lt_of_succ_lt_succ hk
      simp only [List.getElem?_cons_succ]
      rw [ih (s0 + c.duration) k hk2, prefixDur_cons_succ]
      have : s0 + c.duration + prefixDur cs k = s0 + (c.duration + prefixDur cs k) := by
        ring
      rw [this]
      rfl

theorem startsFrom_length {F : Type} :
    ∀ (clips : List (VClip F)) (s0 : ℚ),
      (startsFrom s0 clips).length = clips.length := by
  intro clips
  induction clips with
  | nil => intro s0; rfl
  | cons c cs ih =>
    intro s0
    simp [startsFrom, ih]

theorem sample_fold_inactive {F : Type} (t : ℚ) :
    ∀ (cs : List (VClip F)) (s1 : ℚ) (acc : F),
      t < s1 → (∀ c ∈ cs, 0 ≤ c.duration) →
      (startsFrom s1 cs).foldl
        (fun acc l =>
          if l.start ≤ t ∧ t < l.start + l.clip.duration
          then l.clip.frame (t - l.start) else acc) acc = acc := by
  intro cs
  induction cs with
  | nil =>
    intro s1 acc _ _
    rfl
  | cons c cs ih =>
    intro s1 acc ht hd
    rw [startsFrom, List.foldl_cons]
    have hcond : ¬ (s1 ≤ t ∧ t < s1 + c.duration) := by
      intro ⟨h1, _⟩
      linarith
    rw [if_neg hcond]
    refine ih (s1 + c.duration) acc ?_ (fun x hx => hd x (by simp [hx]))
    have := hd c (by simp)
    linarith

theorem sample_fold {F : Type} (t : ℚ) :
    ∀ (cs : List (VClip F)) (s0 : ℚ) (acc : F),
      s0 ≤ t → (∀ c ∈ cs, 0 ≤ c.duration) →
      (startsFrom s0 cs).foldl
        (fun acc l =>
          if l.start ≤ t ∧ t < l.start + l.clip.duration
          then l.clip.frame (t - l.start) else acc) acc =
      (match dispatchClip s0 t cs with
       | some (c, lt) => c.frame lt
       | none => acc) := by
  intro cs
  induction cs with
  | nil =>
    intro s0 acc _ _
    rfl
  | cons c cs ih =>
    intro s0 acc hs0 hd
    rw [startsFrom, List.foldl_cons, dispatchClip]
    by_cases ht : t < s0 + c.duration
    · rw [if_pos ⟨hs0, ht⟩, if_pos ht]
      exact sample_fold_inactive t cs (s0 + c.duration) _ ht
        (fun x hx => hd x (by simp [hx]))
    · rw [if_neg (fun h => ht h.2), if_neg ht]
      exact ih (s0 + c.duration) acc (by linarith [not_lt.mp ht])
        (fun x hx => hd x (by simp [hx]))

theorem dispatch_at_index {F : Type} (t : ℚ) :
    ∀ (cs : List (VClip F)) (s0 : ℚ) (k : ℕ) (hk : k < cs.length),
      (∀ c ∈ cs, 0 ≤ c.duration) →
      s0 + prefixDur cs k ≤ t →
      t < s0 + prefixDur cs k + (cs.get ⟨k, hk⟩).duration →
      dispatchClip s0 t cs = some (cs.get ⟨k, hk⟩, t - (s0 + prefixDur cs k)) := by
  intro cs
  induction cs with
  | nil =>
    intro s0 k hk
    simp at hk
  | cons c cs ih =>
    intro s0 k hk hd hlo hhi
    cases k with
    | zero =>
      rw [prefixDur_zero] at hlo hhi
      rw [dispatchClip, if_pos (by simpa using hhi)]
      simp [prefixDur_zero]
    | succ k =>
      have hk2 : k < cs.length := by simpa using Nat.lt_of_succ_lt_succ hk
      have hget : (c :: cs).get ⟨k + 1, hk⟩ = cs.get ⟨k, hk2⟩ := rfl
      rw [prefixDur_cons_succ] at hlo hhi ⊢
      rw [hget] at hhi ⊢
      have hpre : 0 ≤ prefixDur cs k :=
        prefixDur_nonneg cs k (fun x hx => hd x (by simp [hx]))
      rw [dispatchClip, if_neg (by push_neg; linarith)]
      rw [ih (s0 + c.duration) k hk2 (fun x hx => hd x (by simp [hx]))
        (by linarith) (by linarith)]
      have hassoc : s0 + c.duration + prefixDur cs k =
          s0 + (c.duration + prefixDur cs k) := by ring
      rw [hassoc]

theorem dispatch_exists {F : Type} :
    ∀ (cs : List (VClip F)) (t : ℚ),
      (∀ c ∈ cs, 0 ≤ c.duration) → 0 ≤ t → t < durSum cs →
      ∃ k : Fin cs.length,
        prefixDur cs k ≤ t ∧
          t < prefixDur cs k + (cs.get k).duration := by
  intro cs
  induction cs with
  | nil =>
    intro t _ h0 hlt
    simp [durSum] at hlt
    linarith
  | cons c cs ih =>
    intro t hd h0 hlt
    by_cases ht : t < c.duration
    · refine ⟨⟨0, by simp⟩, ?_, ?_⟩
      · rw [prefixDur_zero]
        exact h0
      · rw [prefixDur_zero]
        simpa using ht
    · have hd2 : ∀ x ∈ cs, 0 ≤ x.duration := fun x hx => hd x (by simp [hx])
      have h1 : 0 ≤ t - c.duration := by linarith [not_lt.mp ht]
      have h2 : t - c.duration < durSum cs := by
        have : durSum (c :: cs) = c.duration + durSum cs := by
          simp [durSum]
        linarith [hlt, this ▸ hlt]
      obtain ⟨⟨k, hk⟩, hlo, hhi⟩ := ih (t - c.duration) hd2 h1 h2
      refine ⟨⟨k + 1, by simpa using Nat.succ_lt_succ hk⟩, ?_, ?_⟩
      · rw [prefixDur_cons_succ]
        simp only [Fin.val_mk] at hlo ⊢
        linarith
      · rw [prefixDur_cons_succ]
        simp only [Fin.val_mk] at hhi ⊢
        have hget : (c :: cs).get ⟨k + 1, by simpa using Nat.succ_lt_succ hk⟩
            = cs.get ⟨k, hk⟩ := rfl
        rw [hget]
        linarith

theorem dispatch_unique {F : Type} (cs : List (VClip F)) (t : ℚ)
    (hd : ∀ c ∈ cs, 0 ≤ c.duration)
    (j k : Fin cs.length)
    (hj1 : prefixDur cs j ≤ t)
    (hj2 : t < prefixDur cs j + (cs.get j).duration)
    (hk1 : prefixDur cs k ≤ t)
    (hk2 : t < prefixDur cs k + (cs.get k).duration) : j = k := by
  by_contra hne
  rcases Nat.lt_or_ge j.val k.val with hlt | hge
  · have hstep : prefixDur cs (j.val + 1) =
        prefixDur cs j.val + (cs.get j).duration :=
      prefixDur_succ cs j.val j.isLt
    have hmono : prefixDur cs (j.val + 1) ≤ prefixDur cs k.val :=
      prefixDur_mono cs hd (j.val + 1) k.val (by omega) (by omega)
    rw [hstep] at hmono
    linarith
  · have hlt2 : k.val < j.val := by
      rcases Nat.lt_or_ge k.val j.val with h | h
      · exact h
      · exact absurd (Fin.ext (by omega)) hne
    have hstep : prefixDur cs (k.val + 1) =
        prefixDur cs k.val + (cs.get k).duration :=
      prefixDur_succ cs k.val k.isLt
    have hmono : prefixDur cs (k.val + 1) ≤ prefixDur cs j.val :=
      prefixDur_mono cs hd (k.val + 1) j.val (by omega) (by omega)
    rw [hstep] at hmono
    linarith

/-- **C3**: concatenation places clip `k` at global start equal to the sum
of the durations of clips `0..k-1` (back to back, no gaps or overlaps), the
total duration is the sum of all durations, and a global time
`t ∈ [0, total)` lies in the interval `[start, start+duration)` of exactly
one clip; sampling the composite at `t` yields that clip's frame at local
time `t - start`. -/
theorem concat_timeline {F : Type} [Inhabited F] (clips : List (VClip F))
    (hne : clips ≠ []) (hd : ∀ c ∈ clips, 0 ≤ c.duration) :
    ∃ comp : CompositeTimeline F,
      concatenate_videoclips clips = .ok comp ∧
      comp.duration = durSum clips ∧
      comp.layers.length = clips.length ∧
      (∀ (k : ℕ) (hk : k < clips.length),
        comp.layers[k]? = some ⟨clips.get ⟨k, hk⟩, prefixDur clips k⟩) ∧
      (∀ t : ℚ, 0 ≤ t → t < durSum clips →
        (∃! k : Fin clips.length,
          prefixDur clips k ≤ t ∧
            t < prefixDur clips k + (clips.get k).duration) ∧
        (∀ k : Fin clips.length,
          prefixDur clips k ≤ t →
          t < prefixDur clips k + (clips.get k).duration →
          comp.sample t = (clips.get k).frame (t - prefixDur clips k))) := by
  obtain ⟨c0, cs, rfl⟩ := List.exists_cons_of_ne_nil hne
  refine ⟨⟨startsFrom 0 (c0 :: cs), c0.size, durSum (c0 :: cs)⟩, ?_, rfl, ?_,
    ?_, ?_⟩
  · rw [concatenate_videoclips]
    simp only [layoutClips_eq]
    simp [pyGetElem, Except.map]
  · exact startsFrom_length (c0 :: cs) 0
  · intro k hk
    rw [startsFrom_getElem (c0 :: cs) 0 k hk]
    rw [zero_add]
  · intro t h0 hlt
    constructor
    · obtain ⟨k, hk1, hk2⟩ := dispatch_exists (c0 :: cs) t hd h0 hlt
      exact ⟨k, ⟨hk1, hk2⟩, fun j ⟨hj1, hj2⟩ =>
        dispatch_unique (c0 :: cs) t hd j k hj1 hj2 hk1 hk2⟩
    · intro k hk1 hk2
      rw [CompositeTimeline.sample]
      simp only
      rw [sample_fold t (c0 :: cs) 0 default h0 hd]
      rw [dispatch_at_index t (c0 :: cs) 0 k.val k.isLt hd
        (by rw [zero_add]; exact hk1) (by rw [zero_add]; exact hk2)]
      rw [zero_add]

theorem concat_timeline_witness :
    ∃ comp : CompositeTimeline ℚ,
      concatenate_videoclips
          [⟨13, fun _ => 100, (1280, 720)⟩,
           ⟨13, fun lt => lt, (1280, 720)⟩,
           ⟨13, fun _ => 200, (1280, 720)⟩] = .ok comp ∧
      comp.duration = 39 ∧
      comp.sample (29 / 2) = 3 / 2 := by
  obtain ⟨comp, h1, h2, _, _, h5⟩ := concat_timeline
    [⟨13, fun _ => (100 : ℚ), (1280, 720)⟩,
     ⟨13, fun lt => lt, (1280, 720)⟩,
     ⟨13, fun _ => 200, (1280, 720)⟩]
    (by simp) (by
      intro c hc
      rcases List.mem_cons.mp hc with h | hc2
      · rw [h]; norm_num
      · rcases List.mem_cons.mp hc2 with h | hc3
        · rw [h]; norm_num
        · rcases List.mem_cons.mp hc3 with h | hc4
          · rw [h]; norm_num
          · simp at hc4)
  refine ⟨comp, h1, ?_, ?_⟩
  · rw [h2]
    norm_num [durSum]
  · have hpre : prefixDur
        [⟨13, fun _ => (100 : ℚ), (1280, 720)⟩,
         (⟨13, fun lt => lt, (1280, 720)⟩ : VClip ℚ),
         ⟨13, fun _ => 200, (1280, 720)⟩] 1 = 13 := by
      norm_num [prefixDur, durSum]
    have h := (h5 (29 / 2) (by norm_num) (by norm_num [durSum])).2
      ⟨1, by norm_num⟩ (by rw [hpre]; norm_num) (by rw [hpre]; norm_num)
    rw [h]
    rw [hpre]
    norm_num

/-- **C4 counterexample**: on the empty list the sequencer does not fail
with `EmptyInputError` — evaluating `clips[0].size` raises `IndexError`. -/
theorem concat_empty_not_emptyInputError :
    concatenate_videoclips ([] : List (VClip ℚ)) ≠
      Except.error PyErr.emptyInputError := by
  intro h
  have h2 : concatenate_videoclips ([] : List (VClip ℚ)) =
      Except.error PyErr.indexError := rfl
  rw [h2] at h
  simp at h

/-- **C4 (amended)**: given an empty clip list the sequencer fails — it
raises `IndexError` from the unconditional `clips[0]` access, not an
explicit `EmptyInputError` — and produces no (zero-duration) timeline. -/
theorem concat_empty_indexError :
    concatenate_videoclips ([] : List (VClip ℚ)) =
      Except.error PyErr.indexError := rfl

end QuizApp
